import Mathlib

/-!
Shallow embedding of the synchronization core of the `gitdem` git remote
helper (crate `git-remote-evm`), together with theorems checking the
natural-language specification against it.

Conventions of the embedding:
* Rust `String`/`&str` values are embedded as `List Char`; byte slices
  (`&[u8]`/`Vec<u8>`) as `List Nat` (each element one byte).
* Fallible Rust code (`Result<T, E>`) becomes `Except E T`.  A Rust panic
  (e.g. an out-of-bounds slice index) is modelled by an `Option` layer:
  `none` means the Rust code aborts by panicking.
* Trait objects (`dyn Git`, `dyn Executor`, `dyn RemoteHelper`) become
  records of pure functions; the observable calls the engine makes against
  the remote store are additionally returned as an explicit event trace.
-/

/-- A character accepted by the lowercase-hex validators
`HASH_REGEX_SHA1 = ^[0-9a-f]{40}$` and `HASH_REGEX_SHA256 = ^[0-9a-f]{64}$`
(`hash.rs`): a decimal digit or a letter between `a` and `f`. -/
def isHexLower (c : Char) : Bool :=
  (('0' ≤ c) && (c ≤ '9')) || (('a' ≤ c) && (c ≤ 'f'))

/-- `HASH_REGEX_SHA1.is_match s`: exactly 40 lowercase hex characters. -/
def isHex40 (s : List Char) : Bool :=
  s.length == 40 && s.all isHexLower

/-- `HASH_REGEX_SHA256.is_match s`: exactly 64 lowercase hex characters. -/
def isHex64 (s : List Char) : Bool :=
  s.length == 64 && s.all isHexLower

/-- Modelled from the spec: the current `RemoteHelperError` declaration is
absent from `src/` (only an older revision of `error.rs` is present, while
`hash.rs`/`object.rs` construct the variants below).  Spec §7 gives the
taxonomy: `Invalid{what, value}`, `Missing{what}`, `Failure{action, details}`.
The formatted message strings of the Rust `format!` calls are carried
structurally (payload fields), not re-rendered. -/
inductive RemoteHelperError where
  | invalid (what value : List Char)
  | missing (what : List Char)
  | failure (action : List Char) (details : Option (List Char))
deriving DecidableEq, Repr

/-- `enum Hash { Sha1(String), Sha256(String) }` from `hash.rs`.  Equality is
the derived structural equality: the algorithm tag participates. -/
inductive Hash where
  | sha1 (s : List Char)
  | sha256 (s : List Char)
deriving DecidableEq, Repr

/-- `Hash::is_sha256` from `hash.rs`. -/
def Hash.isSha256 : Hash → Bool
  | .sha1 _ => false
  | .sha256 _ => true

/-- `Hash::empty(is_sha256)` from `hash.rs`: the all-zero digest of the
requested width. -/
def Hash.empty (wantSha256 : Bool) : Hash :=
  if wantSha256 then .sha256 (List.replicate 64 '0') else .sha1 (List.replicate 40 '0')

/-- `Hash::padded` from `hash.rs`: pad with trailing zeros to make the digit
string 64 characters long (a `Sha256` value is returned unchanged). -/
def Hash.padded : Hash → List Char
  | .sha1 s => s ++ List.replicate (64 - s.length) '0'
  | .sha256 s => s

/-- `Hash::is_empty` from `hash.rs`. -/
def Hash.isEmpty (h : Hash) : Bool :=
  match h with
  | .sha1 _ => h == Hash.empty false
  | .sha256 _ => h == Hash.empty true

/-- `s.strip_suffix(&"0".repeat(24)).unwrap_or(s)` from `Hash::from_str`:
remove one trailing run of exactly 24 `'0'` characters when the string ends
with one, otherwise return the string unchanged. -/
def strip24 (s : List Char) : List Char :=
  if 24 ≤ s.length ∧ s.drop (s.length - 24) = List.replicate 24 '0' then
    s.take (s.length - 24)
  else s

/-- `Hash::from_str` from `hash.rs`: strip a 24-zero suffix, then match the
result against the SHA-1 regex, then the SHA-256 regex, then fail. -/
def Hash.fromStr (s : List Char) : Except RemoteHelperError Hash :=
  let t := strip24 s
  if isHex40 t then .ok (.sha1 t)
  else if isHex64 t then .ok (.sha256 t)
  else .error (.failure "parsing hash".toList (some t))

/-- ASCII bytes of a string literal (all source literals used are ASCII). -/
def strBytes (s : String) : List Nat :=
  s.toList.map Char.toNat

/-- `hex::encode`: each byte becomes two lowercase hex characters. -/
def hexDigitChar (n : Nat) : Char :=
  if n < 10 then Char.ofNat (48 + n) else Char.ofNat (97 + (n - 10))

/-- `hex::encode` over a byte slice. -/
def hexEncode (bytes : List Nat) : List Char :=
  bytes.flatMap (fun b => [hexDigitChar ((b / 16) % 16), hexDigitChar (b % 16)])

/-- `TryFrom<&[u8]> for Hash` from `hash.rs`: hex-encode the bytes, then
`Hash::from_str`. -/
def Hash.tryFromBytes (bytes : List Nat) : Except RemoteHelperError Hash :=
  Hash.fromStr (hexEncode bytes)

/-- `String::from_utf8_lossy`, restricted to the ASCII plane: bytes ≥ 128
are rendered as the U+FFFD replacement character.  (Multi-byte UTF-8
sequences are not decoded; no claim inspects these diagnostic payloads.) -/
def lossyChars (bytes : List Nat) : List Char :=
  bytes.map (fun b => if b < 128 then Char.ofNat b else '�')

/-- `String::from_utf8`, restricted to the ASCII plane: succeeds exactly on
all-ASCII input.  A byte sequence that is valid multi-byte UTF-8 decodes
successfully in Rust but its characters are outside `[0-9a-f]`, so every
use below (`Hash::from_str` on the decoded text) fails either way; the
merge only changes which error value is produced, which no claim inspects. -/
def asciiDecode (bytes : List Nat) : Option (List Char) :=
  if bytes.all (· < 128) then some (bytes.map Char.ofNat) else none

/-- `slice.iter().position(|b| *b == sep)` + split: the part before the
first separator and the part after it, or `none` when no separator occurs.
Also models `splitn(2, sep)` (which yields two parts exactly when the
separator occurs). -/
def splitAtFirst {α : Type} [DecidableEq α] (sep : α) : List α → Option (List α × List α)
  | [] => none
  | x :: xs =>
    if x = sep then some ([], xs)
    else (splitAtFirst sep xs).map (fun p => (x :: p.1, p.2))

/-- `enum ObjectKind` from `object.rs`. -/
inductive ObjectKind where
  | blob
  | tree
  | commit
  | tag
deriving DecidableEq, Repr

/-- `Display for ObjectKind` from `object.rs`. -/
def ObjectKind.display : ObjectKind → List Char
  | .blob => "blob".toList
  | .tree => "tree".toList
  | .commit => "commit".toList
  | .tag => "tag".toList

/-- `FromStr for ObjectKind` from `object.rs`. -/
def ObjectKind.fromStr (s : List Char) : Except RemoteHelperError ObjectKind :=
  if s = "blob".toList then .ok .blob
  else if s = "tree".toList then .ok .tree
  else if s = "commit".toList then .ok .commit
  else if s = "tag".toList then .ok .tag
  else .error (.invalid "object kind".toList s)

theorem splitAtFirst_some_shorter {α : Type} [DecidableEq α] (sep : α) :
    ∀ (l pre rest : List α), splitAtFirst sep l = some (pre, rest) → rest.length < l.length := by
  intro l
  induction l with
  | nil => intro pre rest h; simp [splitAtFirst] at h
  | cons x xs ih =>
    intro pre rest h
    by_cases hx : x = sep
    · rw [splitAtFirst, if_pos hx] at h
      have h2 : rest = xs := by
        have := congrArg Prod.snd (Option.some.inj h)
        simpa using this.symm
      subst h2
      simp
    · rw [splitAtFirst, if_neg hx] at h
      cases hs : splitAtFirst sep xs with
      | none => rw [hs] at h; simp at h
      | some pr =>
        rw [hs] at h
        simp only [Option.map_some'] at h
        have h2 : rest = pr.2 := by
          have := congrArg Prod.snd (Option.some.inj h)
          simpa using this.symm
        have hlt := ih pr.1 pr.2 (by rw [hs])
        subst h2
        simp
        omega

/-- The `ObjectKind::Tree` loop of `Object::find_related_objects`
(`object.rs`): repeatedly find a NUL, then take the next `hashLength` bytes
as a child hash.  `&data[..hash_length]` in Rust panics when fewer than
`hashLength` bytes remain; the panic is modelled by `none`. -/
def treeScan (hashLength : Nat) (data : List Nat) :
    Option (Except RemoteHelperError (List Hash)) :=
  if data.isEmpty then some (.ok [])
  else
    match hsplit : splitAtFirst 0 data with
    | none =>
      some (.error (.invalid "object tree line".toList ("full: ".toList ++ lossyChars data)))
    | some (_, rest) =>
      if rest.length < hashLength then none
      else
        match Hash.tryFromBytes (rest.take hashLength) with
        | .error e => some (.error e)
        | .ok h =>
          (treeScan hashLength (rest.drop hashLength)).map (fun r => r.map (fun hs => h :: hs))
  termination_by data.length
  decreasing_by
    have hlt := splitAtFirst_some_shorter 0 data _ _ hsplit
    have hle : (rest.drop hashLength).length ≤ rest.length := by
      simp
    omega

/-- The `ObjectKind::Commit` loop of `Object::find_related_objects`
(`object.rs`), over the payload already split at newline bytes: each line is
split at spaces; fewer than two parts is an error; a leading `tree`/`parent`
part contributes the parsed hash of the second part; any other first part
breaks the loop, returning the hashes collected so far. -/
def commitScan : List (List Nat) → Except RemoteHelperError (List Hash)
  | [] => .ok []
  | line :: rest =>
    match line.splitOn 32 with
    | p0 :: p1 :: _ =>
      if p0 = strBytes "tree" ∨ p0 = strBytes "parent" then
        match asciiDecode p1 with
        | none => .error (.invalid "object commit".toList "invalid utf-8".toList)
        | some hashStr =>
          match Hash.fromStr hashStr with
          | .error e => .error e
          | .ok h => (commitScan rest).map (fun hs => h :: hs)
      else .ok []
    | _ => .error (.invalid "object commit".toList (lossyChars line))

/-- `Object::find_related_objects` from `object.rs`.  The outer `Option`
layer models a Rust panic (`none`); only the tree branch can panic. -/
def findRelatedObjects (kind : ObjectKind) (data : List Nat) (wantSha256 : Bool) :
    Option (Except RemoteHelperError (List Hash)) :=
  match kind with
  | .blob => some (.ok [])
  | .tree => treeScan (if wantSha256 then 32 else 20) data
  | .commit => some (commitScan (data.splitOn 10))
  | .tag =>
    let lines := data.splitOn 10
    match lines with
    | [] => some (.error (.invalid "object tag".toList (lossyChars data)))
    | first :: _ =>
      match first.splitOn 32 with
      | [kindPart, objPart] =>
        if kindPart = strBytes "object" then
          some ((Hash.tryFromBytes objPart).map (fun h => [h]))
        else some (.error (.invalid "object tag".toList (lossyChars first)))
      | _ => some (.error (.invalid "object tag".toList (lossyChars first)))

/-- `struct Object` from `object.rs`. -/
structure Object where
  kind : ObjectKind
  data : List Nat
  relatedObjects : List Hash
deriving DecidableEq, Repr

/-- `Object::new` from `object.rs`: compute the related objects, then pack
the fields.  `none` models a panic inside `find_related_objects`. -/
def Object.new (kind : ObjectKind) (data : List Nat) (wantSha256 : Bool) :
    Option (Except RemoteHelperError Object) :=
  (findRelatedObjects kind data wantSha256).map
    (fun r => r.map (fun rel => ⟨kind, data, rel⟩))

/-- Decimal rendering of a natural number (`usize::to_string`). -/
def natToDecimal (n : Nat) : List Char :=
  if h : n < 10 then [Char.ofNat (48 + n)]
  else natToDecimal (n / 10) ++ [Char.ofNat (48 + n % 10)]
  termination_by n
  decreasing_by
    exact Nat.div_lt_self (by omega) (by omega)

/-- Accumulated value of a digit string (helper for `parseUsize`). -/
def parseVal (cs : List Char) : Nat :=
  cs.foldl (fun a c => 10 * a + (c.toNat - 48)) 0

/-- `str::parse::<usize>`: an optional leading `'+'`, then one or more
decimal digits.  (Machine-width overflow is elided: the only parse the
round-trip claim exercises is of a length the same process just printed.) -/
def parseUsize (cs : List Char) : Option Nat :=
  let ds := if cs.head? = some '+' then cs.tail else cs
  if ds.isEmpty then none
  else if ds.all Char.isDigit then some (parseVal ds) else none

/-- `Object::serialize` from `object.rs`: ASCII kind name, space, decimal
payload length, NUL, payload. -/
def Object.serialize (o : Object) : List Nat :=
  (o.kind.display.map Char.toNat) ++ [32]
    ++ ((natToDecimal o.data.length).map Char.toNat) ++ [0] ++ o.data

/-- `Object::deserialize` from `object.rs`: split at the first NUL
(`splitn(2, 0)`), decode the header, split it at the first space
(`splitn(2, ' ')`), parse kind and size, check the size, then recompute the
related objects.  `none` models a panic inside `find_related_objects`. -/
def Object.deserialize (input : List Nat) (wantSha256 : Bool) :
    Option (Except RemoteHelperError Object) :=
  match splitAtFirst 0 input with
  | none => some (.error (.invalid "object".toList (lossyChars input)))
  | some (headerBytes, data) =>
    match asciiDecode headerBytes with
    | none => some (.error (.invalid "object header".toList "invalid utf-8".toList))
    | some header =>
      match splitAtFirst ' ' header with
      | none => some (.error (.invalid "object header".toList header))
      | some (kindStr, sizeStr) =>
        match ObjectKind.fromStr kindStr with
        | .error e => some (.error e)
        | .ok kind =>
          match parseUsize sizeStr with
          | none => some (.error (.invalid "object size".toList sizeStr))
          | some size =>
            if size ≠ data.length then
              some (.error (.invalid "object size mismatch".toList (lossyChars input)))
            else
              (findRelatedObjects kind data wantSha256).map
                (fun r => r.map (fun rel => ⟨kind, data, rel⟩))

/-- Statement helper (same branch structure as the commit arm of
`find_related_objects`): the hash contributed by one commit line when the
line is a `tree`/`parent` line whose hash text parses, `none` otherwise. -/
def treeParentLineHash (line : List Nat) : Option Hash :=
  match line.splitOn 32 with
  | p0 :: p1 :: _ =>
    if p0 = strBytes "tree" ∨ p0 = strBytes "parent" then
      match asciiDecode p1 with
      | none => none
      | some s => (Hash.fromStr s).toOption
    else none
  | _ => none

/-- Statement helper: a commit line at which the scan of
`find_related_objects` stops successfully — it splits into at least two
space-separated parts and its first part is neither `tree` nor `parent`. -/
def stopsCommitScan (line : List Nat) : Bool :=
  match line.splitOn 32 with
  | p0 :: _ :: _ => !(p0 == strBytes "tree" || p0 == strBytes "parent")
  | _ => false

/-- Modelled from the spec: the `Push` directive record (spec §3,
`Push{local_ref_name, remote_ref_name, force}`); its declaration (the
current revision of `reference.rs`) is absent from `src/`, but its fields
are fixed by the uses in `cli/mod.rs` (`Push::new(local, remote, is_force)`,
`r.local`, `r.remote`) and `evm.rs`.  `local` is a Lean keyword, hence
`localRef`/`remoteRef`. -/
structure Push where
  localRef : List Char
  remoteRef : List Char
  isForce : Bool
deriving DecidableEq, Repr, Inhabited

/-- Modelled from the spec: the `Fetch` directive record (spec §3,
`Fetch{hash, ref_name}`), declaration absent from `src/`, fields fixed by
the uses in `evm.rs`. -/
structure Fetch where
  hash : Hash
  name : List Char
deriving DecidableEq, Repr

/-- Modelled from the spec: the closed capability-key enumeration (spec §3:
currently only `object-format`). -/
inductive Keys where
  | objectFormat
deriving DecidableEq, Repr

/-- Modelled from the spec: the current `Reference` union (spec §3:
`Normal{name, hash}`, `Symbolic{name, target}`, `KeyValue{key, value}`);
declaration absent from `src/`, variants fixed by the uses in `evm.rs` and
`cli/mod.rs`. -/
inductive Reference where
  | normal (name : List Char) (hash : Hash)
  | symbolic (name : List Char) (target : List Char)
  | keyValue (key : Keys) (value : List Char)
deriving DecidableEq, Repr

/-- `Display for Hash` from `hash.rs`: the digit string, tag dropped. -/
def Hash.display : Hash → List Char
  | .sha1 s => s
  | .sha256 s => s

/-- Modelled from the spec: the reference text format of spec §6 —
`<hash> <name>`, `@<target> <name>`, `:<key> <value>` (the `Display`
implementation of the current `Reference` is absent from `src/`). -/
def Reference.display : Reference → List Char
  | .normal name hash => hash.display ++ ' ' :: name
  | .symbolic name target => '@' :: target ++ ' ' :: name
  | .keyValue _ value => ':' :: "object-format".toList ++ ' ' :: value

/-- Modelled from the spec: the current `CLIError` (the `cli/error.rs` in
`src/` is an older revision without `InvalidArgument`); variants fixed by
the uses in `cli/mod.rs` and spec §4.2/§7. -/
inductive CLIError where
  | malformedLine (line : List Char)
  | invalidArgument (arg : List Char)
  | unknownCommand (line : List Char)
  | illegalState (line : List Char)
  | command (e : RemoteHelperError)
  | endOfInput
deriving DecidableEq, Repr

/-- `enum State` from `cli/mod.rs`: `None`, `ListingFetches(Vec<Hash>)`,
`ListingPushes(Vec<Push>)`. -/
inductive CLIState where
  | none
  | listingFetches (hashes : List Hash)
  | listingPushes (refs : List Push)
deriving DecidableEq, Repr

/-- The `dyn RemoteHelper` trait object the CLI drives, as a record of pure
functions (`capabilities`, `list`, `fetch`, `push` — the revision used by
`cli/mod.rs`, where `fetch` takes one hash and `push` takes the batch). -/
structure RemoteHelper where
  capabilities : List (List Char)
  list : Bool → Except RemoteHelperError (List Reference)
  fetch : Hash → Except RemoteHelperError Unit
  push : List Push → Except RemoteHelperError Unit

/-- Modelled from the spec: `Display for RemoteHelperError` (absent from
`src/`); spec §7 fixes the taxonomy and that the failing action name and
diagnostic text are surfaced.  No claim depends on the exact wording. -/
def rhErrDisplay : RemoteHelperError → List Char
  | .invalid what value => "invalid ".toList ++ what ++ ": ".toList ++ value
  | .missing what => "missing ".toList ++ what
  | .failure action details =>
    "failed ".toList ++ action
      ++ (match details with
          | some d => ": ".toList ++ d
          | none => [])

/-- Rust `{:?}` applied to a `String` (used by `do_push` for the error
message): surrounding double quotes; escape sequences are elided (none of
the rendered messages require them). -/
def rustDebugQuote (s : List Char) : List Char :=
  '"' :: s ++ ['"']

/-- `str::split_whitespace`: split on whitespace runs, dropping empty
segments. -/
def splitWhitespace (l : List Char) : List (List Char) :=
  (l.splitOnP Char.isWhitespace).filter (fun w => ¬ w.isEmpty)

/-- The loop of `CLI::do_fetch` from `cli/mod.rs`: fetch each hash in turn,
aborting on the first error. -/
def doFetchLoop (rh : RemoteHelper) : List Hash → Except CLIError Unit
  | [] => .ok ()
  | h :: rest =>
    match rh.fetch h with
    | .error e => .error (.command e)
    | .ok _ => doFetchLoop rh rest

/-- `CLI::do_fetch` from `cli/mod.rs`.  Output is modelled line-wise: each
`writeln!` contributes one line, the bare `writeln!` a blank (empty) line. -/
def doFetch (rh : RemoteHelper) (hashes : List Hash) :
    Except CLIError Unit × List (List Char) :=
  match doFetchLoop rh hashes with
  | .error e => (.error e, [])
  | .ok _ => (.ok (), [[]])

/-- `CLI::do_push` from `cli/mod.rs`: one call to `remote_helper.push` with
the whole batch, then one `ok <remote>`/`error <remote> <msg>` line per
requested ref — each decided by the single shared batch result — then a
blank line; the batch result is also returned. -/
def doPush (rh : RemoteHelper) (refs : List Push) :
    Except CLIError Unit × List (List Char) :=
  let result := rh.push refs
  let lines := refs.map (fun r =>
    match result with
    | .ok _ => "ok ".toList ++ r.remoteRef
    | .error e => "error ".toList ++ r.remoteRef ++ ' ' :: rustDebugQuote (rhErrDisplay e))
  (match result with
   | .ok _ => .ok ()
   | .error e => .error (.command e),
   lines ++ [[]])

/-- `CLI::handle_line` from `cli/mod.rs`.  Returns the resulting state (on
success) and the stdout lines written.  The final
`if self.state == State::None { writeln!(stdout, "{}", response) }` is
modelled by emitting the response lines only when the state after the
command is `none` (the response of `capabilities` joins the capability list
with newlines, so written output is line-per-capability plus the blank line
from the trailing newline pair). -/
def handleLine (rh : RemoteHelper) (st : CLIState) (line : List Char) :
    Except CLIError CLIState × List (List Char) :=
  if line = ['\n'] then
    match st with
    | .none => (.error .endOfInput, [])
    | .listingFetches hashes =>
      let r := doFetch rh hashes
      (r.1.map (fun _ => CLIState.none), r.2)
    | .listingPushes refs =>
      let r := doPush rh refs
      (r.1.map (fun _ => CLIState.none), r.2)
  else
    match splitWhitespace line with
    | [] => (.error (.malformedLine line), [])
    | command :: args =>
      if command = "capabilities".toList then
        if args ≠ [] then (.error (.malformedLine line), [])
        else
          (.ok st,
            if st = .none then
              (if rh.capabilities.isEmpty then [[]] else rh.capabilities) ++ [[]]
            else [])
      else if command = "list".toList then
        match args with
        | [] =>
          match rh.list false with
          | .error e => (.error (.command e), [])
          | .ok refs =>
            (.ok st, if st = .none then refs.map Reference.display ++ [[]] else [])
        | [a] =>
          if a = "for-push".toList then
            match rh.list true with
            | .error e => (.error (.command e), [])
            | .ok refs =>
              (.ok st, if st = .none then refs.map Reference.display ++ [[]] else [])
          else (.error (.invalidArgument a), [])
        | _ => (.error (.malformedLine line), [])
      else if command = "fetch".toList then
        match args with
        | [a1, a2] =>
          match Hash.fromStr a1 with
          | .error _ => (.error (.invalidArgument a1), [])
          | .ok h =>
            match st with
            | .none => (.ok (.listingFetches [h]), [])
            | .listingFetches hashes => (.ok (.listingFetches (hashes ++ [h])), [])
            | .listingPushes _ => (.error (.illegalState line), [])
        | _ => (.error (.malformedLine line), [])
      else if command = "push".toList then
        match args with
        | [arg0] =>
          let isForce := arg0.head? = some '+'
          let arg := if isForce then arg0.tail else arg0
          match arg.splitOn ':' with
          | [l, r] =>
            let reference := Push.mk l r isForce
            match st with
            | .none => (.ok (.listingPushes [reference]), [])
            | .listingPushes refs => (.ok (.listingPushes (refs ++ [reference])), [])
            | .listingFetches _ => (.error (.illegalState line), [])
          | _ => (.error (.malformedLine line), [])
        | _ => (.error (.malformedLine line), [])
      else (.error (.unknownCommand line), [])


/-- Concrete push directives for exercising `do_push` (ref `a` is the one
the remote store below rejects). -/
def c2Pa : Push := ⟨"refs/heads/a".toList, "refs/heads/ra".toList, false⟩

/-- Second concrete push directive (accepted on its own by the store
below). -/
def c2Pb : Push := ⟨"refs/heads/b".toList, "refs/heads/rb".toList, false⟩

/-- A remote helper whose batch push fails exactly when the batch contains
`c2Pa` (so `c2Pb` on its own pushes fine): the per-ref ground truth against
which `do_push`'s per-ref output lines can be compared. -/
def c2Helper : RemoteHelper where
  capabilities := ["*fetch".toList, "*push".toList]
  list := fun _ => .ok []
  fetch := fun _ => .ok ()
  push := fun refs =>
    if c2Pa ∈ refs then .error (.missing "object".toList) else .ok ()


/-- A trivial remote helper used to exercise the protocol state machine at
a concrete input. -/
def c9Helper : RemoteHelper where
  capabilities := []
  list := fun _ => .ok []
  fetch := fun _ => .ok ()
  push := fun _ => .ok ()


/-- The `dyn Git` collaborator of `Evm` (`core/git`), as a record of pure
functions — the revision `evm.rs` uses (`resolve_reference`, `get_object`,
`save_object`, `list_objects`, `list_missing_objects`, `is_sha256`). -/
structure GitOps where
  resolveReference : List Char → Except RemoteHelperError Hash
  getObject : Hash → Except RemoteHelperError Object
  saveObject : Object → Except RemoteHelperError Unit
  listObjects : Hash → Except RemoteHelperError (List Hash)
  listMissingObjects : Hash → Hash → Except RemoteHelperError (List Hash)
  isSha256 : Except RemoteHelperError Bool

/-- The `dyn Executor` collaborator of `Evm` (remote store), as a record of
pure functions, per the calls in `evm.rs`. -/
structure ExecutorOps where
  list : Except RemoteHelperError (List Reference)
  resolveReferences : List (List Char) → Except RemoteHelperError (List Hash)
  fetch : Hash → Except RemoteHelperError Object
  listObjects : Except RemoteHelperError (List Hash)
  push : List Object → List Reference → Bool → Except RemoteHelperError Unit

/-- Observable remote/local-store events of `Evm::fetch`: one per
successful `executor.fetch` and one per successful `git.save_object`,
tagged with the requested hash. -/
inductive FetchEvent where
  | fetched (h : Hash)
  | saved (h : Hash)
deriving DecidableEq, Repr

/-- The `while let Some(hash) = to_fetch.pop()` loop of `Evm::fetch`
(`evm.rs`).  The Rust `Vec` pops from its end; the worklist is kept here in
reversed order, so the list head is the top of the stack and
`to_fetch.extend(related)` becomes `related.reverse ++ rest`.  `fuel`
bounds the number of iterations; exhausting it yields `none` (the run is
cut short, which no claim depends on). -/
def evmFetchLoop (ex : ExecutorOps) (git : GitOps) :
    Nat → List Hash → List Hash → List FetchEvent
      → Option (Except RemoteHelperError Unit) × List FetchEvent
  | _, [], _, trace => (some (.ok ()), trace)
  | 0, _ :: _, _, trace => (none, trace)
  | fuel + 1, h :: rest, processed, trace =>
    if h ∈ processed then evmFetchLoop ex git fuel rest processed trace
    else
      match ex.fetch h with
      | .error e => (some (.error e), trace ++ [.fetched h])
      | .ok obj =>
        match git.saveObject obj with
        | .error e => (some (.error e), trace ++ [.fetched h])
        | .ok _ =>
          evmFetchLoop ex git fuel (obj.relatedObjects.reverse ++ rest)
            (h :: processed) (trace ++ [.fetched h, .saved h])

/-- `Evm::fetch` from `evm.rs`: seed the worklist with the requested
hashes (reversed here because the head models the top of the Rust `Vec`). -/
def evmFetch (ex : ExecutorOps) (git : GitOps) (fuel : Nat) (fetches : List Fetch) :
    Option (Except RemoteHelperError Unit) × List FetchEvent :=
  evmFetchLoop ex git fuel ((fetches.map (fun f => f.hash)).reverse) [] []

/-- The hashes fetched from the remote store, in trace order. -/
def fetchedHashes (tr : List FetchEvent) : List Hash :=
  tr.filterMap (fun e =>
    match e with
    | .fetched h => some h
    | _ => none)

/-- The hashes saved to the local store, in trace order. -/
def savedHashes (tr : List FetchEvent) : List Hash :=
  tr.filterMap (fun e =>
    match e with
    | .saved h => some h
    | _ => none)

/-- `iter().map(|r| self.git.resolve_reference(&r.local)).collect::<Result<Vec<_>,_>>()`:
resolve every name, aborting on the first error. -/
def resolveAll (git : GitOps) : List (List Char) → Except RemoteHelperError (List Hash)
  | [] => .ok []
  | n :: t =>
    match git.resolveReference n with
    | .error e => .error e
    | .ok h => (resolveAll git t).map (fun hs => h :: hs)

/-- `.map(|hash| self.git.get_object(hash)).collect::<Result<Vec<_>,_>>()`. -/
def getObjects (git : GitOps) : List Hash → Except RemoteHelperError (List Object)
  | [] => .ok []
  | h :: t =>
    match git.getObject h with
    | .error e => .error e
    | .ok o => (getObjects git t).map (fun os => o :: os)

/-- `HashSet<Object>::insert`, with iteration order fixed to insertion
order (the Rust `HashSet` iterates in unspecified order; no claim depends
on the order). -/
def hashSetInsert (os : List Object) (o : Object) : List Object :=
  if o ∈ os then os else os ++ [o]

/-- `objects.extend(missing_objects)` over the insertion-ordered set. -/
def hashSetExtend (os : List Object) (new : List Object) : List Object :=
  new.foldl hashSetInsert os

/-- The body of the `remote_hash.is_empty()` branch of `Evm::push` given
the remote inventory `inv`: the local reachable set from `local_hash`
(deduplicated, as a `HashSet`), minus the inventory, each fetched via
`git.get_object`. -/
def absentRefMissing (git : GitOps) (inv : List Hash) (localHash : Hash) :
    Except RemoteHelperError (List Object) :=
  match git.listObjects localHash with
  | .error e => .error e
  | .ok localList => getObjects git (localList.dedup.filter (fun h => !(inv.contains h)))

/-- Observable remote-store events of `Evm::push`: the lazy full-inventory
listing and the final atomic push call with its arguments. -/
inductive PushEvent where
  | listedRemoteObjects
  | pushedRemote (objects : List Object) (refs : List Reference) (wantSha256 : Bool)
deriving DecidableEq, Repr

/-- The per-ref loop of `Evm::push` (`evm.rs`), over
`zip(zip(local_hashes, remote_hashes), local_names)`: skip when the hashes
agree; otherwise compute the missing objects (full-inventory difference
when the remote hash is the empty sentinel, memoized across the batch;
ancestry diff otherwise) and emit `Reference::Normal{name: local_name,
hash: local_hash}`. -/
def evmPushLoop (git : GitOps) (ex : ExecutorOps) :
    List ((Hash × Hash) × List Char) → List Reference → List Object → Option (List Hash)
      → Except RemoteHelperError (List Reference × List Object) × List PushEvent
  | [], refs, objs, _ => (.ok (refs, objs), [])
  | ((localHash, remoteHash), localName) :: rest, refs, objs, memo =>
    if localHash = remoteHash then evmPushLoop git ex rest refs objs memo
    else if remoteHash.isEmpty then
      match memo with
      | some inv =>
        match absentRefMissing git inv localHash with
        | .error e => (.error e, [])
        | .ok missing =>
          evmPushLoop git ex rest (refs ++ [.normal localName localHash])
            (hashSetExtend objs missing) memo
      | none =>
        match ex.listObjects with
        | .error e => (.error e, [.listedRemoteObjects])
        | .ok inv =>
          match absentRefMissing git inv localHash with
          | .error e => (.error e, [.listedRemoteObjects])
          | .ok missing =>
            let r := evmPushLoop git ex rest (refs ++ [.normal localName localHash])
              (hashSetExtend objs missing) (some inv)
            (r.1, .listedRemoteObjects :: r.2)
    else
      match git.listMissingObjects localHash remoteHash with
      | .error e => (.error e, [])
      | .ok mh =>
        match getObjects git mh with
        | .error e => (.error e, [])
        | .ok missing =>
          evmPushLoop git ex rest (refs ++ [.normal localName localHash])
            (hashSetExtend objs missing) memo

/-- `Evm::push` from `evm.rs`: early-out on an empty batch; resolve all
local refs, batch-resolve the remote refs, run the per-ref loop, then
either short-circuit (both accumulators empty) or issue the single atomic
push with `git.is_sha256()`. -/
def evmPush (git : GitOps) (ex : ExecutorOps) (pushes : List Push) :
    Except RemoteHelperError Unit × List PushEvent :=
  if pushes.isEmpty then (.ok (), [])
  else
    match resolveAll git (pushes.map (fun p => p.localRef)) with
    | .error e => (.error e, [])
    | .ok localHashes =>
      match ex.resolveReferences (pushes.map (fun p => p.remoteRef)) with
      | .error e => (.error e, [])
      | .ok remoteHashes =>
        let r := evmPushLoop git ex
          ((localHashes.zip remoteHashes).zip (pushes.map (fun p => p.localRef))) [] [] none
        match r.1 with
        | .error e => (.error e, r.2)
        | .ok (references, objects) =>
          if objects.isEmpty ∧ references.isEmpty then (.ok (), r.2)
          else
            match git.isSha256 with
            | .error e => (.error e, r.2)
            | .ok flag =>
              (ex.push objects references flag,
                r.2 ++ [.pushedRemote objects references flag])


/-- Concrete local hash for the push examples. -/
def c1Hash : Hash := Hash.sha1 (List.replicate 40 'a')

/-- Concrete (non-empty, different) remote hash. -/
def c1RemoteHash : Hash := Hash.sha1 (List.replicate 40 'b')

/-- Concrete local store: every ref resolves to `c1Hash`; the ancestry diff
is empty. -/
def c1Git : GitOps where
  resolveReference := fun _ => .ok c1Hash
  getObject := fun _ => .error (.missing "object".toList)
  saveObject := fun _ => .ok ()
  listObjects := fun _ => .ok []
  listMissingObjects := fun _ _ => .ok []
  isSha256 := .ok false

/-- Concrete remote store: the requested ref currently points at
`c1RemoteHash`. -/
def c1Exec : ExecutorOps where
  list := .ok []
  resolveReferences := fun _ => .ok [c1RemoteHash]
  fetch := fun _ => .error (.missing "object".toList)
  listObjects := .ok []
  push := fun _ _ _ => .ok ()

/-- Concrete local store for the up-to-date push example. -/
def c4Git : GitOps where
  resolveReference := fun _ => .ok c1Hash
  getObject := fun _ => .error (.missing "object".toList)
  saveObject := fun _ => .ok ()
  listObjects := fun _ => .ok []
  listMissingObjects := fun _ _ => .ok []
  isSha256 := .ok false

/-- Concrete remote store already holding the same hash the local ref
resolves to. -/
def c4Exec : ExecutorOps where
  list := .ok []
  resolveReferences := fun _ => .ok [Hash.sha1 (List.replicate 40 'a')]
  fetch := fun _ => .error (.missing "object".toList)
  listObjects := .ok []
  push := fun _ _ _ => .ok ()


theorem strip24_append_zeros (s : List Char) (h : s.length = 40) :
    strip24 (s ++ List.replicate 24 '0') = s := by
  have hlen : (s ++ List.replicate 24 '0').length = 64 := by
    simp [h]
  have hdrop : (s ++ List.replicate 24 '0').drop ((s ++ List.replicate 24 '0').length - 24)
      = List.replicate 24 '0' := by
    rw [hlen]
    have h40 : (64 : Nat) - 24 = s.length := by omega
    rw [h40, List.drop_left]
  have htake : (s ++ List.replicate 24 '0').take ((s ++ List.replicate 24 '0').length - 24)
      = s := by
    rw [hlen]
    have h40 : (64 : Nat) - 24 = s.length := by omega
    rw [h40, List.take_left]
  unfold strip24
  rw [if_pos ⟨by rw [hlen]; omega, hdrop⟩]
  exact htake

/-- C7 counterexample: `Hash::from_str` does not accept every 40-character
lowercase-hex string: the all-zero 40-character string (git's own
empty-hash sentinel text) is rejected, because `from_str` first strips a
trailing run of 24 `'0'` characters, leaving 16 characters that match
neither regex.  Dually, a 64-character lowercase-hex string ending in 24
zeros is accepted but tagged `Sha1` (160-bit), not 256-bit as its length
would demand. -/
theorem hash_fromStr_C7_counterexample :
    ((List.replicate 40 '0').length = 40
      ∧ (List.replicate 40 '0').all isHexLower = true
      ∧ (Hash.fromStr (List.replicate 40 '0')).isOk = false)
    ∧ ((List.replicate 40 'a' ++ List.replicate 24 '0').length = 64
      ∧ (List.replicate 40 'a' ++ List.replicate 24 '0').all isHexLower = true
      ∧ Hash.fromStr (List.replicate 40 'a' ++ List.replicate 24 '0')
          = .ok (.sha1 (List.replicate 40 'a'))) := by
  refine ⟨⟨by decide, by decide, by decide⟩, ⟨by decide, by decide, by rfl⟩⟩

/-- C7 (amended): parsing first removes one trailing run of exactly 24 `'0'`
characters when present; it succeeds exactly when the remainder is 40 or 64
lowercase-hex characters, tagging the result 160-bit for 40 remaining
characters and 256-bit for 64; and two hashes tagged with different
algorithms are never equal. -/
theorem hash_fromStr_spec :
    (∀ s : List Char,
      (Hash.fromStr s).isOk = true
        ↔ (isHex40 (strip24 s) = true ∨ isHex64 (strip24 s) = true))
    ∧ (∀ s : List Char, isHex40 (strip24 s) = true →
        Hash.fromStr s = .ok (.sha1 (strip24 s)))
    ∧ (∀ s : List Char, isHex64 (strip24 s) = true →
        Hash.fromStr s = .ok (.sha256 (strip24 s)))
    ∧ (∀ a b : List Char, Hash.sha1 a ≠ Hash.sha256 b) := by
  refine ⟨fun s => ?_, fun s h => ?_, fun s h => ?_, fun a b => by simp⟩
  · unfold Hash.fromStr
    by_cases h40 : isHex40 (strip24 s) <;> by_cases h64 : isHex64 (strip24 s) <;>
      simp [h40, h64, Except.isOk, Except.toBool]
  · unfold Hash.fromStr
    simp [h]
  · have h' := h
    simp only [isHex64, Bool.and_eq_true, beq_iff_eq, List.all_eq_true] at h'
    have h40 : isHex40 (strip24 s) = false := by
      simp [isHex40, h'.1]
    unfold Hash.fromStr
    simp [h, h40]

/-- C7 witness: the amended parsing characterization applied at the concrete
40-character string `aaaa…a`. -/
theorem hash_fromStr_spec_witness :
    Hash.fromStr (List.replicate 40 'a') = .ok (.sha1 (strip24 (List.replicate 40 'a'))) :=
  hash_fromStr_spec.2.1 (List.replicate 40 'a') (by decide)

/-- C10: for every well-formed 160-bit hash (a 40-character lowercase-hex
digit string), `padded()` appends exactly 24 trailing `'0'` characters to
reach 64 characters, and `Hash::from_str` applied to the padded form
round-trips to the original `Sha1` value. -/
theorem hash_padded_roundtrip (s : List Char) (h : isHex40 s = true) :
    Hash.padded (.sha1 s) = s ++ List.replicate 24 '0'
    ∧ (Hash.padded (.sha1 s)).length = 64
    ∧ Hash.fromStr (Hash.padded (.sha1 s)) = .ok (.sha1 s) := by
  have hlen : s.length = 40 := by
    have h' := h
    simp only [isHex40, Bool.and_eq_true, beq_iff_eq, List.all_eq_true] at h'
    exact h'.1
  have hpad : Hash.padded (.sha1 s) = s ++ List.replicate 24 '0' := by
    simp [Hash.padded, hlen]
  refine ⟨hpad, ?_, ?_⟩
  · rw [hpad]; simp [hlen]
  · rw [hpad]
    unfold Hash.fromStr
    rw [strip24_append_zeros s hlen]
    simp [h]

/-- C10 witness: the padded round-trip at the concrete hash `aaaa…a`. -/
theorem hash_padded_roundtrip_witness :
    Hash.fromStr (Hash.padded (.sha1 (List.replicate 40 'a')))
      = .ok (.sha1 (List.replicate 40 'a')) :=
  (hash_padded_roundtrip (List.replicate 40 'a') (by decide)).2.2

theorem splitAtFirst_append {α : Type} [DecidableEq α] (sep : α) (l1 l2 : List α)
    (h : sep ∉ l1) : splitAtFirst sep (l1 ++ sep :: l2) = some (l1, l2) := by
  induction l1 with
  | nil => simp [splitAtFirst]
  | cons x xs ih =>
    have hx : ¬ x = sep := by
      intro e
      exact h (by simp [e])
    have hxs : sep ∉ xs := fun m => h (List.mem_cons_of_mem _ m)
    simp [splitAtFirst, hx, ih hxs]

theorem digitChar_isDigit (d : Nat) (h : d < 10) : (Char.ofNat (48 + d)).isDigit = true := by
  interval_cases d <;> decide

theorem digitChar_toNat (d : Nat) (h : d < 10) : (Char.ofNat (48 + d)).toNat = 48 + d := by
  interval_cases d <;> decide

theorem parseVal_append (l : List Char) (c : Char) :
    parseVal (l ++ [c]) = 10 * parseVal l + (c.toNat - 48) := by
  unfold parseVal
  rw [List.foldl_append]
  rfl

theorem natToDecimal_spec (n : Nat) :
    (∀ c ∈ natToDecimal n, ∃ d, d < 10 ∧ c = Char.ofNat (48 + d))
    ∧ natToDecimal n ≠ [] ∧ parseVal (natToDecimal n) = n := by
  induction n using Nat.strong_induction_on with
  | _ n ih =>
    by_cases h : n < 10
    · have he : natToDecimal n = [Char.ofNat (48 + n)] := by
        rw [natToDecimal.eq_def, dif_pos h]
      refine ⟨?_, ?_, ?_⟩
      · intro c hc
        rw [he] at hc
        simp at hc
        exact ⟨n, h, hc⟩
      · rw [he]; simp
      · rw [he]
        have hv : parseVal [Char.ofNat (48 + n)]
            = 10 * 0 + ((Char.ofNat (48 + n)).toNat - 48) := rfl
        rw [hv, digitChar_toNat n h]
        omega
    · have he : natToDecimal n = natToDecimal (n / 10) ++ [Char.ofNat (48 + n % 10)] := by
        rw [natToDecimal.eq_def, dif_neg h]
      obtain ⟨hmem, hne, hval⟩ := ih (n / 10) (Nat.div_lt_self (by omega) (by omega))
      refine ⟨?_, ?_, ?_⟩
      · intro c hc
        rw [he] at hc
        rcases List.mem_append.1 hc with hm | hm
        · exact hmem c hm
        · simp at hm
          exact ⟨n % 10, Nat.mod_lt _ (by omega), hm⟩
      · rw [he]; simp
      · rw [he, parseVal_append, hval, digitChar_toNat _ (Nat.mod_lt _ (by omega))]
        omega

theorem parseUsize_natToDecimal (n : Nat) : parseUsize (natToDecimal n) = some n := by
  obtain ⟨hmem, hne, hval⟩ := natToDecimal_spec n
  have hall : (natToDecimal n).all Char.isDigit = true := by
    rw [List.all_eq_true]
    intro c hc
    obtain ⟨d, hd, rfl⟩ := hmem c hc
    exact digitChar_isDigit d hd
  have hhead : ¬ (natToDecimal n).head? = some '+' := by
    cases hc : natToDecimal n with
    | nil => simp
    | cons c r =>
      have hcm : c ∈ natToDecimal n := by rw [hc]; simp
      obtain ⟨d, hd, rfl⟩ := hmem c hcm
      simp only [List.head?, Option.some_inj]
      intro heq
      have hdig := digitChar_isDigit d hd
      rw [heq] at hdig
      exact absurd hdig (by decide)
  have hempty : ¬ (natToDecimal n).isEmpty = true := by
    cases hc : natToDecimal n with
    | nil => exact absurd hc hne
    | cons c r => simp
  simp only [parseUsize]
  rw [if_neg hhead, if_neg hempty, if_pos hall, hval]

theorem asciiDecode_map_toNat (cs : List Char) (h : ∀ c ∈ cs, c.toNat < 128) :
    asciiDecode (cs.map Char.toNat) = some cs := by
  unfold asciiDecode
  have hall : (cs.map Char.toNat).all (fun b => decide (b < 128)) = true := by
    rw [List.all_eq_true]
    intro b hb
    rw [List.mem_map] at hb
    obtain ⟨c, hc, rfl⟩ := hb
    simpa using h c hc
  rw [if_pos hall]
  congr 1
  rw [List.map_map]
  calc cs.map (Char.ofNat ∘ Char.toNat) = cs.map id :=
        List.map_congr_left (fun c _ => Char.ofNat_toNat c)
    _ = cs := List.map_id cs

theorem kind_display_props (k : ObjectKind) :
    (∀ c ∈ k.display, c.toNat < 128 ∧ c.toNat ≠ 0 ∧ c.toNat ≠ 32)
    ∧ ' ' ∉ k.display
    ∧ ObjectKind.fromStr k.display = .ok k := by
  cases k <;> exact ⟨by decide, by decide, rfl⟩

theorem serialize_decomp (o : Object) :
    Object.serialize o
      = ((o.kind.display ++ ' ' :: natToDecimal o.data.length).map Char.toNat)
          ++ 0 :: o.data := by
  unfold Object.serialize
  simp [List.map_append]

theorem deserialize_serialize_of_wf (f : Bool) (o : Object)
    (hrel : findRelatedObjects o.kind o.data f = some (.ok o.relatedObjects)) :
    Object.deserialize (Object.serialize o) f = some (.ok o) := by
  obtain ⟨hbytes, hsp, hfrom⟩ := kind_display_props o.kind
  obtain ⟨hmem, hne, hval⟩ := natToDecimal_spec o.data.length
  have hdrall : ∀ c ∈ o.kind.display ++ ' ' :: natToDecimal o.data.length,
      c.toNat < 128 ∧ c.toNat ≠ 0 := by
    intro c hc
    rcases List.mem_append.1 hc with hm | hm
    · exact ⟨(hbytes c hm).1, (hbytes c hm).2.1⟩
    · rcases List.mem_cons.1 hm with rfl | hm
      · exact ⟨by decide, by decide⟩
      · obtain ⟨d, hd, rfl⟩ := hmem c hm
        rw [digitChar_toNat d hd]
        omega
  have h0 : (0 : Nat)
      ∉ (o.kind.display ++ ' ' :: natToDecimal o.data.length).map Char.toNat := by
    intro hm
    rw [List.mem_map] at hm
    obtain ⟨c, hc, he⟩ := hm
    exact (hdrall c hc).2 he
  have hsplit0 : splitAtFirst 0 (Object.serialize o)
      = some ((o.kind.display ++ ' ' :: natToDecimal o.data.length).map Char.toNat,
          o.data) := by
    rw [serialize_decomp]
    exact splitAtFirst_append 0 _ _ h0
  have hdec : asciiDecode
      ((o.kind.display ++ ' ' :: natToDecimal o.data.length).map Char.toNat)
      = some (o.kind.display ++ ' ' :: natToDecimal o.data.length) :=
    asciiDecode_map_toNat _ (fun c hc => (hdrall c hc).1)
  have hsplitSp : splitAtFirst ' ' (o.kind.display ++ ' ' :: natToDecimal o.data.length)
      = some (o.kind.display, natToDecimal o.data.length) :=
    splitAtFirst_append ' ' _ _ hsp
  unfold Object.deserialize
  rw [hsplit0]
  simp only [hdec, hsplitSp, hfrom, parseUsize_natToDecimal]
  rw [if_neg (by simp)]
  rw [hrel]
  rfl

theorem object_new_wf {k : ObjectKind} {d : List Nat} {f : Bool} {o : Object}
    (h : Object.new k d f = some (.ok o)) :
    findRelatedObjects o.kind o.data f = some (.ok o.relatedObjects) := by
  unfold Object.new at h
  cases hr : findRelatedObjects k d f with
  | none => rw [hr] at h; simp at h
  | some r =>
    rw [hr] at h
    simp only [Option.map_some'] at h
    cases r with
    | error e => simp [Except.map] at h
    | ok rel =>
      simp only [Except.map] at h
      have he : Object.mk k d rel = o := Except.ok.inj (Option.some.inj h)
      rw [← he]
      exact hr

theorem object_deserialize_wf {inp : List Nat} {f : Bool} {o : Object}
    (h : Object.deserialize inp f = some (.ok o)) :
    findRelatedObjects o.kind o.data f = some (.ok o.relatedObjects) := by
  unfold Object.deserialize at h
  split at h
  · simp at h
  · split at h
    · simp at h
    · split at h
      · simp at h
      · split at h
        · simp at h
        · split at h
          · simp at h
          · split at h
            · simp at h
            · rw [Option.map_eq_some'] at h
              obtain ⟨r, hr, hmap⟩ := h
              cases r with
              | error e => simp [Except.map] at hmap
              | ok rel =>
                simp only [Except.map] at hmap
                have he := Except.ok.inj hmap
                rw [← he]
                exact hr

/-- C5: for every `Object` successfully constructed with algorithm flag `f`
(via `Object::new` or `Object::deserialize` with `f`),
`Object::deserialize(o.serialize(), f)` returns `Ok(o)`: the round-trip
preserves the kind, the raw payload bytes, and the related-object list. -/
theorem object_roundtrip (f : Bool) (o : Object)
    (h : (∃ k d, Object.new k d f = some (.ok o))
      ∨ (∃ inp, Object.deserialize inp f = some (.ok o))) :
    Object.deserialize (Object.serialize o) f = some (.ok o) := by
  rcases h with ⟨k, d, hk⟩ | ⟨inp, hi⟩
  · exact deserialize_serialize_of_wf f o (object_new_wf hk)
  · exact deserialize_serialize_of_wf f o (object_deserialize_wf hi)

/-- C5 witness: the round-trip at the concrete blob object with payload
`test`, constructed via `Object::new` under the 256-bit flag. -/
theorem object_roundtrip_witness :
    Object.deserialize (Object.serialize (Object.mk .blob (strBytes "test") [])) true
      = some (.ok (Object.mk .blob (strBytes "test") [])) :=
  object_roundtrip true (Object.mk .blob (strBytes "test") [])
    (.inl ⟨.blob, strBytes "test", rfl⟩)

/-- C6: on the tree payload consisting of a single NUL byte the Rust code
panics (`&data[..hash_length]` with 0 bytes remaining after the NUL —
modelled by `none`), instead of returning the `InvalidFormat`-style error
the claim requires for a truncated hash; a payload with no NUL at all does
produce the structured `Invalid` error. -/
theorem tree_related_truncated_panics :
    findRelatedObjects .tree [0] false = none
    ∧ findRelatedObjects .tree (strBytes "entry") false
        = some (.error (.invalid "object tree line".toList
            ("full: ".toList ++ lossyChars (strBytes "entry")))) := by
  constructor
  · show treeScan 20 [0] = none
    rw [treeScan]
    simp [splitAtFirst]
  · show treeScan 20 (strBytes "entry") = _
    rw [treeScan]
    simp [splitAtFirst, strBytes]

/-- C8 counterexample: the empty commit payload — whose single (blank) line
is neither a `tree` line nor a `parent` line, so the claim requires the scan
to stop successfully with no hashes — instead produces an `Invalid` error,
because the code rejects any line with fewer than two space-separated parts
before checking whether the line is a `tree`/`parent` line. -/
theorem commit_related_blank_line_errors :
    findRelatedObjects .commit [] false
        = some (.error (.invalid "object commit".toList []))
    ∧ findRelatedObjects .commit [] false ≠ some (.ok []) := by
  refine ⟨rfl, ?_⟩
  intro hcontra
  have h1 : findRelatedObjects .commit [] false
      = some (.error (.invalid "object commit".toList [])) := rfl
  rw [h1] at hcontra
  simp at hcontra

theorem commitScan_prefix (stop : List Nat) (rest : List (List Nat))
    (hstop : stopsCommitScan stop = true) :
    ∀ (pre : List (List Nat)) (hs : List Hash),
      pre.map treeParentLineHash = hs.map some →
        commitScan (pre ++ stop :: rest) = .ok hs := by
  intro pre
  induction pre with
  | nil =>
    intro hs hpre
    have hnil : hs = [] := by
      cases hs with
      | nil => rfl
      | cons a b => simp at hpre
    subst hnil
    unfold stopsCommitScan at hstop
    show commitScan (stop :: rest) = .ok []
    unfold commitScan
    revert hstop
    cases hsp : stop.splitOn 32 with
    | nil => intro hstop; simp at hstop
    | cons p0 ps =>
      cases ps with
      | nil => intro hstop; simp at hstop
      | cons p1 ps' =>
        intro hstop
        simp only [Bool.not_eq_true', Bool.or_eq_false_iff, beq_eq_false_iff_ne] at hstop
        dsimp only
        rw [if_neg]
        intro hor
        rcases hor with hx | hx
        · exact hstop.1 hx
        · exact hstop.2 hx
  | cons line pre' ih =>
    intro hs hpre
    cases hs with
    | nil => simp at hpre
    | cons h0 hs' =>
      simp only [List.map_cons] at hpre
      have hline : treeParentLineHash line = some h0 := (List.cons.inj hpre).1
      have hrest : pre'.map treeParentLineHash = hs'.map some := (List.cons.inj hpre).2
      unfold treeParentLineHash at hline
      show commitScan (line :: (pre' ++ stop :: rest)) = .ok (h0 :: hs')
      unfold commitScan
      revert hline
      cases hsp : line.splitOn 32 with
      | nil => intro hline; simp at hline
      | cons p0 ps =>
        cases ps with
        | nil => intro hline; simp at hline
        | cons p1 ps' =>
          intro hline
          dsimp only at hline ⊢
          by_cases hkind : p0 = strBytes "tree" ∨ p0 = strBytes "parent"
          · rw [if_pos hkind] at hline ⊢
            cases hdec : asciiDecode p1 with
            | none => rw [hdec] at hline; simp at hline
            | some s =>
              rw [hdec] at hline
              dsimp only at hline ⊢
              cases hfs : Hash.fromStr s with
              | error e => rw [hfs] at hline; simp [Except.toOption] at hline
              | ok hh =>
                rw [hfs] at hline
                have hh0 : hh = h0 := by
                  simpa [Except.toOption] using hline
                subst hh0
                dsimp only
                rw [ih hs' hrest]
                rfl
          · rw [if_neg hkind] at hline
            simp at hline

/-- C8 (amended): the commit scan contributes exactly one hash per leading
`tree <hash>`/`parent <hash>` line (hash text parsing included) and stops
successfully at the first line that is neither — provided that stopping
line splits into at least two space-separated parts; a stopping line with
fewer than two parts (such as a blank line, or the single blank line of an
empty payload) instead aborts the scan with an `Invalid` error. -/
theorem commit_related_scan (dataBytes : List Nat) (f : Bool)
    (pre : List (List Nat)) (stop : List Nat) (rest : List (List Nat)) (hs : List Hash)
    (hsplit : dataBytes.splitOn 10 = pre ++ stop :: rest)
    (hpre : pre.map treeParentLineHash = hs.map some)
    (hstop : stopsCommitScan stop = true) :
    findRelatedObjects .commit dataBytes f = some (.ok hs) := by
  show some (commitScan (dataBytes.splitOn 10)) = some (.ok hs)
  rw [hsplit, commitScan_prefix stop rest hstop pre hs hpre]

/-- C8 witness: the amended scan applied to the concrete commit payload
`tree aaaa…a\nauthor x y`: one hash from the `tree` line, successful stop
at the `author` line. -/
theorem commit_related_scan_witness :
    findRelatedObjects .commit
        (strBytes ("tree " ++ String.mk (List.replicate 40 'a') ++ "\nauthor x y")) false
      = some (.ok [Hash.sha1 (List.replicate 40 'a')]) :=
  commit_related_scan
    (strBytes ("tree " ++ String.mk (List.replicate 40 'a') ++ "\nauthor x y")) false
    [strBytes ("tree " ++ String.mk (List.replicate 40 'a'))]
    (strBytes "author x y") [] [Hash.sha1 (List.replicate 40 'a')]
    (by decide) (by decide) (by decide)

/-- C2 counterexample: `do_push` reports the outcome of the whole batch for
every ref, not each ref's own outcome: with a store for which pushing
`c2Pb` alone succeeds, pushing the batch `[c2Pa, c2Pb]` prints an `error`
line for `c2Pb` as well — a partial failure is not visible per ref. -/
theorem doPush_shared_result_counterexample :
    c2Helper.push [c2Pb] = .ok ()
    ∧ (doPush c2Helper [c2Pa, c2Pb]).2
        = ["error ".toList ++ c2Pa.remoteRef
             ++ ' ' :: rustDebugQuote (rhErrDisplay (.missing "object".toList)),
           "error ".toList ++ c2Pb.remoteRef
             ++ ' ' :: rustDebugQuote (rhErrDisplay (.missing "object".toList)),
           []] := by
  constructor
  · rfl
  · rfl

/-- C2 (amended): a flushed push batch prints exactly one line per
requested ref followed by a blank line, but every ref's line reflects the
single result of pushing the whole batch: either every line is
`ok <remote-ref>`, or the batch push failed and every line is
`error <remote-ref> <message>` with one shared message. -/
theorem doPush_lines_uniform (rh : RemoteHelper) (refs : List Push) :
    (doPush rh refs).2.length = refs.length + 1
    ∧ (doPush rh refs).2.getLast? = some []
    ∧ ((∀ (i : Nat) (r : Push), refs[i]? = some r →
          (doPush rh refs).2[i]? = some ("ok ".toList ++ r.remoteRef))
      ∨ (∃ e, rh.push refs = .error e ∧ ∀ (i : Nat) (r : Push), refs[i]? = some r →
          (doPush rh refs).2[i]? = some ("error ".toList ++ r.remoteRef
            ++ ' ' :: rustDebugQuote (rhErrDisplay e)))) := by
  refine ⟨by simp [doPush], ?_, ?_⟩
  · show (_ ++ [[]]).getLast? = some []
    simp
  · cases hp : rh.push refs with
    | ok u =>
      left
      intro i r hr
      have hi : i < refs.length := by
        by_contra hge
        rw [List.getElem?_eq_none (by omega)] at hr
        simp at hr
      show (List.map _ refs ++ [[]])[i]? = _
      rw [List.getElem?_append_left (by simpa using hi), List.getElem?_map, hr, hp]
      simp
    | error e =>
      right
      refine ⟨e, rfl, ?_⟩
      intro i r hr
      have hi : i < refs.length := by
        by_contra hge
        rw [List.getElem?_eq_none (by omega)] at hr
        simp at hr
      show (List.map _ refs ++ [[]])[i]? = _
      rw [List.getElem?_append_left (by simpa using hi), List.getElem?_map, hr, hp]
      simp

/-- C2 witness: the uniform-lines description applied at the concrete batch
`[c2Pa, c2Pb]` against `c2Helper`. -/
theorem doPush_lines_uniform_witness :
    (doPush c2Helper [c2Pa, c2Pb]).2.length = 2 + 1 :=
  (doPush_lines_uniform c2Helper [c2Pa, c2Pb]).1

/-- C9: the two protocol batches are mutually exclusive: a well-formed
`fetch <hash> <name>` line arriving while pushes are accumulating, and a
well-formed `push [+]<local>:<remote>` line arriving while fetches are
accumulating, each produce an illegal-state error (with no output and no
new state) instead of starting or joining a batch. -/
theorem handleLine_illegal_state :
    (∀ (rh : RemoteHelper) (ps : List Push) (line a1 a2 : List Char),
      splitWhitespace line = ["fetch".toList, a1, a2] →
      (Hash.fromStr a1).isOk = true →
      handleLine rh (.listingPushes ps) line = (.error (.illegalState line), []))
    ∧ (∀ (rh : RemoteHelper) (hs : List Hash) (line arg l r : List Char),
      splitWhitespace line = ["push".toList, arg] →
      (if arg.head? = some '+' then arg.tail else arg).splitOn ':' = [l, r] →
      handleLine rh (.listingFetches hs) line = (.error (.illegalState line), [])) := by
  constructor
  · intro rh ps line a1 a2 hsplit hok
    have hne : ¬ line = ['\n'] := by
      intro e
      rw [e] at hsplit
      rw [show splitWhitespace ['\n'] = [] from by decide] at hsplit
      exact absurd hsplit (by simp)
    obtain ⟨h, hh⟩ : ∃ h, Hash.fromStr a1 = .ok h := by
      cases hfs : Hash.fromStr a1 with
      | ok h => exact ⟨h, rfl⟩
      | error e => rw [hfs] at hok; simp [Except.isOk, Except.toBool] at hok
    unfold handleLine
    rw [if_neg hne, hsplit]
    dsimp only
    rw [if_neg (by decide), if_neg (by decide), if_pos rfl]
    rw [hh]
  · intro rh hs line arg l r hsplit hsp
    have hne : ¬ line = ['\n'] := by
      intro e
      rw [e] at hsplit
      rw [show splitWhitespace ['\n'] = [] from by decide] at hsplit
      exact absurd hsplit (by simp)
    unfold handleLine
    rw [if_neg hne, hsplit]
    dsimp only
    rw [if_neg (by decide), if_neg (by decide), if_neg (by decide), if_pos rfl]
    rw [hsp]

/-- C9 witness: a concrete well-formed fetch line arriving while a push
batch is accumulating. -/
theorem handleLine_illegal_state_witness :
    handleLine c9Helper (.listingPushes [])
        ("fetch ".toList ++ List.replicate 40 'a' ++ " refs/heads/main\n".toList)
      = (.error (.illegalState
          ("fetch ".toList ++ List.replicate 40 'a' ++ " refs/heads/main\n".toList)), []) :=
  handleLine_illegal_state.1 c9Helper []
    ("fetch ".toList ++ List.replicate 40 'a' ++ " refs/heads/main\n".toList)
    (List.replicate 40 'a') "refs/heads/main".toList (by decide) (by decide)

theorem fetchedHashes_append (a b : List FetchEvent) :
    fetchedHashes (a ++ b) = fetchedHashes a ++ fetchedHashes b := by
  simp [fetchedHashes]

theorem savedHashes_append (a b : List FetchEvent) :
    savedHashes (a ++ b) = savedHashes a ++ savedHashes b := by
  simp [savedHashes]

theorem evmFetchLoop_once (ex : ExecutorOps) (git : GitOps) :
    ∀ (fuel : Nat) (stack processed : List Hash) (trace : List FetchEvent),
      (fetchedHashes trace).Nodup → (savedHashes trace).Nodup →
      (∀ h ∈ fetchedHashes trace, h ∈ processed) →
      (∀ h ∈ savedHashes trace, h ∈ processed) →
      (fetchedHashes (evmFetchLoop ex git fuel stack processed trace).2).Nodup
      ∧ (savedHashes (evmFetchLoop ex git fuel stack processed trace).2).Nodup := by
  intro fuel
  induction fuel with
  | zero =>
    intro stack processed trace h1 h2 _ _
    cases stack with
    | nil => exact ⟨h1, h2⟩
    | cons h t => exact ⟨h1, h2⟩
  | succ fuel ih =>
    intro stack processed trace h1 h2 h3 h4
    cases stack with
    | nil => exact ⟨h1, h2⟩
    | cons h t =>
      simp only [evmFetchLoop]
      by_cases hmem : h ∈ processed
      · rw [if_pos hmem]
        exact ih t processed trace h1 h2 h3 h4
      · rw [if_neg hmem]
        have hnf : h ∉ fetchedHashes trace := fun hin => hmem (h3 h hin)
        have hns : h ∉ savedHashes trace := fun hin => hmem (h4 h hin)
        have hfe : (fetchedHashes (trace ++ [.fetched h])).Nodup := by
          rw [fetchedHashes_append]
          refine List.Nodup.append h1 (by simp [fetchedHashes]) ?_
          intro x hx hx'
          have : x = h := by simpa [fetchedHashes] using hx'
          exact hnf (this ▸ hx)
        have hse : (savedHashes (trace ++ [.fetched h])).Nodup := by
          rw [savedHashes_append]
          simpa [savedHashes] using h2
        cases hf : ex.fetch h with
        | error e => dsimp only; exact ⟨hfe, hse⟩
        | ok obj =>
          dsimp only
          cases hsv : git.saveObject obj with
          | error e => dsimp only; exact ⟨hfe, hse⟩
          | ok u =>
            dsimp only
            apply ih
            · rw [fetchedHashes_append]
              refine List.Nodup.append h1 (by simp [fetchedHashes]) ?_
              intro x hx hx'
              have : x = h := by simpa [fetchedHashes] using hx'
              exact hnf (this ▸ hx)
            · rw [savedHashes_append]
              refine List.Nodup.append h2 (by simp [savedHashes]) ?_
              intro x hx hx'
              have : x = h := by simpa [savedHashes] using hx'
              exact hns (this ▸ hx)
            · intro x hx
              rw [fetchedHashes_append] at hx
              rcases List.mem_append.1 hx with hm | hm
              · exact List.mem_cons_of_mem _ (h3 x hm)
              · have : x = h := by simpa [fetchedHashes] using hm
                simp [this]
            · intro x hx
              rw [savedHashes_append] at hx
              rcases List.mem_append.1 hx with hm | hm
              · exact List.mem_cons_of_mem _ (h4 x hm)
              · have : x = h := by simpa [savedHashes] using hm
                simp [this]

/-- C3: in every fetch batch — whatever the remote store returns and
whatever hashes are requested, duplicates and shared ancestors included —
each distinct hash is fetched from the remote store at most once and saved
to the local store at most once (the event traces are duplicate-free). -/
theorem evmFetch_fetch_save_once (ex : ExecutorOps) (git : GitOps) (fuel : Nat)
    (fetches : List Fetch) :
    (fetchedHashes (evmFetch ex git fuel fetches).2).Nodup
    ∧ (savedHashes (evmFetch ex git fuel fetches).2).Nodup := by
  unfold evmFetch
  exact evmFetchLoop_once ex git fuel ((fetches.map (fun f => f.hash)).reverse) [] []
    (by simp [fetchedHashes]) (by simp [savedHashes])
    (by simp [fetchedHashes]) (by simp [savedHashes])

theorem evmPushLoop_all_eq (git : GitOps) (ex : ExecutorOps) :
    ∀ (entries : List ((Hash × Hash) × List Char)) (refs : List Reference)
      (objs : List Object) (memo : Option (List Hash)),
      (∀ p ∈ entries, p.1.1 = p.1.2) →
      evmPushLoop git ex entries refs objs memo = (.ok (refs, objs), []) := by
  intro entries
  induction entries with
  | nil => intro refs objs memo _; rfl
  | cons p rest ih =>
    intro refs objs memo h
    obtain ⟨⟨lh, rh⟩, name⟩ := p
    have he : lh = rh := h ((lh, rh), name) (by simp)
    simp only [evmPushLoop]
    rw [if_pos he]
    exact ih refs objs memo (fun q hq => h q (by simp [hq]))

/-- C4: when every requested ref's resolved local hash equals the
corresponding remote hash, push succeeds, transfers nothing, emits no
reference update, and performs no remote-store call beyond the read-only
reference resolution — in particular the store's atomic push is never
invoked (the write-event trace is empty). -/
theorem evmPush_noop_when_up_to_date (git : GitOps) (ex : ExecutorOps) (pushes : List Push)
    (localHashes remoteHashes : List Hash)
    (hloc : resolveAll git (pushes.map (fun p => p.localRef)) = .ok localHashes)
    (hrem : ex.resolveReferences (pushes.map (fun p => p.remoteRef)) = .ok remoteHashes)
    (heq : ∀ p ∈ localHashes.zip remoteHashes, p.1 = p.2) :
    evmPush git ex pushes = (.ok (), []) := by
  by_cases hp : pushes.isEmpty
  · unfold evmPush
    rw [if_pos hp]
  · unfold evmPush
    rw [if_neg hp, hloc]
    dsimp only
    rw [hrem]
    dsimp only
    rw [evmPushLoop_all_eq git ex _ [] [] none ?hall]
    case hall =>
      intro p hp'
      obtain ⟨⟨a, b⟩, name⟩ := p
      exact heq (a, b) (List.of_mem_zip hp').1
    dsimp only
    rw [if_pos ⟨rfl, rfl⟩]

/-- C4 witness: a one-ref batch whose local and remote hashes agree. -/
theorem evmPush_noop_witness :
    evmPush c4Git c4Exec [⟨"refs/heads/main".toList, "refs/heads/main".toList, false⟩]
      = (.ok (), []) :=
  evmPush_noop_when_up_to_date c4Git c4Exec
    [⟨"refs/heads/main".toList, "refs/heads/main".toList, false⟩]
    [Hash.sha1 (List.replicate 40 'a')] [Hash.sha1 (List.replicate 40 'a')]
    rfl rfl (by decide)

/-- C1 (code-bug evidence): for the directive `refs/heads/main:refs/heads/dev`
whose local ref resolves to `c1Hash` while the remote ref currently holds a
different hash, the reference handed to the remote store's atomic push is
`Normal{name: "refs/heads/main", hash: c1Hash}` — the LOCAL ref name — even
though the directive's remote ref name is `refs/heads/dev` (`evm.rs` line
124 pushes `local_name`). -/
theorem evmPush_emits_local_name :
    evmPush c1Git c1Exec [⟨"refs/heads/main".toList, "refs/heads/dev".toList, false⟩]
      = (.ok (), [.pushedRemote [] [.normal "refs/heads/main".toList c1Hash] false])
    ∧ ("refs/heads/main".toList : List Char) ≠ "refs/heads/dev".toList := by
  exact ⟨rfl, by decide⟩
